import Mathlib

/-!
Shallow embedding of the MemTableRep interface from
`src/ceph_0.94.5/src/rocksdb/include/rocksdb/memtablerep.h` (the vendored
RocksDB header in ceph 0.94.5).

The header declares an abstract collection contract: a set of encoded key
buffers ordered and compared by a `KeyComparator`, with `Insert`, `Contains`,
`MarkReadOnly`, `Get`, an `Iterator` protocol, iterator factories, capability
flags and the factory declarations with their default construction
parameters.  The inline default bodies present in the header
(`GetIterator(user_key)`, `GetDynamicPrefixIterator`, `IsMergeOperatorSupported`,
`IsSnapshotSupported`, `MarkReadOnly`, the default arguments of the factory
functions) are embedded from that code.  The concrete collection behaviour
(ordered storage, the default `Get` scan loop, `VectorRep` lazy sorting,
iterator positioning) lives in source files that this repository snapshot
does not carry; those parts are modelled from the spec, and each such
definition says so in its doc comment.

Keys are modelled as an arbitrary type `K`; a comparator is a function
`K → K → Int` returning negative / zero / positive exactly as the
`KeyComparator::operator()` contract states.
-/

namespace MemTable

/-- The `KeyComparator` contract (memtablerep.h lines 52-65): `cmp a b` is
negative when `a` is less than `b`, `0` when they are equal, positive when
`a` is greater; the induced relation is a total order on keys up to
comparator equality. -/
structure IsComparator {K : Type} (cmp : K → K → Int) : Prop where
  refl : ∀ a, cmp a a = 0
  flip : ∀ a b, cmp a b < 0 ↔ 0 < cmp b a
  trans_le : ∀ a b c, cmp a b ≤ 0 → cmp b c ≤ 0 → cmp a c ≤ 0

/-- `Contains` (memtablerep.h line 82): true iff an entry that compares
equal to `key` is in the collection.  Modelled from the spec: the concrete
implementations are not in this snapshot, so the collection is its list of
entries and `Contains` scans it with the comparator. -/
def contains {K : Type} (cmp : K → K → Int) (entries : List K) (k : K) : Bool :=
  entries.any (fun e => cmp e k == 0)

/-- Abstract state of a `MemTableRep`: the entries inserted so far (in
insertion order) and the one-way read-only flag set by `MarkReadOnly`.
Modelled from the spec: the header only declares the interface. -/
structure RepState (K : Type) where
  entries : List K
  readOnly : Bool

/-- A freshly created rep: no entries, mutable. -/
def emptyRep {K : Type} : RepState K := ⟨[], false⟩

/-- `Insert` (memtablerep.h lines 75-79): adds the key buffer to the
collection; it returns nothing (duplicate insertion is a precondition
violation, not a reported error).  Modelled from the spec. -/
def insertKey {K : Type} (st : RepState K) (k : K) : RepState K :=
  { st with entries := st.entries ++ [k] }

/-- `MarkReadOnly` (memtablerep.h line 86): one-way transition to
read-only. -/
def markReadOnly {K : Type} (st : RepState K) : RepState K :=
  { st with readOnly := true }

/-- The mutating operations of the `MemTableRep` interface: `Insert` and
`MarkReadOnly` (the interface has no removal operation). -/
inductive Op (K : Type) where
  | ins (k : K)
  | mro

/-- Apply one interface operation to the state. -/
def applyOp {K : Type} (st : RepState K) : Op K → RepState K
  | Op.ins k => insertKey st k
  | Op.mro => markReadOnly st

/-- Run a sequence of interface operations. -/
def runOps {K : Type} (st : RepState K) (ops : List (Op K)) : RepState K :=
  ops.foldl applyOp st

/-- The `Insert` precondition (memtablerep.h lines 77-78: REQUIRES nothing
that compares equal to key is currently in the collection) holds at every
step of the operation sequence. -/
def validOps {K : Type} (cmp : K → K → Int) : RepState K → List (Op K) → Bool
  | _, [] => true
  | st, Op.ins k :: ops => !contains cmp st.entries k && validOps cmp (insertKey st k) ops
  | st, Op.mro :: ops => validOps cmp (markReadOnly st) ops

/-- Insert a key into a comparator-sorted list, keeping it sorted.  Building
block of the sort pass the spec ascribes to ordered iteration. -/
def insertSorted {K : Type} (cmp : K → K → Int) (k : K) : List K → List K
  | [] => [k]
  | x :: xs => if cmp k x ≤ 0 then k :: x :: xs else x :: insertSorted cmp k xs

/-- Full comparator sort (insertion sort).  Modelled from the spec: ordered
iteration presents the entries sorted by the comparator. -/
def sortEntries {K : Type} (cmp : K → K → Int) : List K → List K
  | [] => []
  | x :: xs => insertSorted cmp x (sortEntries cmp xs)

/-- `MemTableRep::Iterator` cursor (memtablerep.h lines 109-141).  Modelled
from the spec: the cursor ranges over the collection's iteration sequence
`keys`; `pos = none` is the invalid state, `pos = some p` points at the
entry with index `p`. -/
structure Iter (K : Type) where
  keys : List K
  pos : Option Nat

/-- A freshly constructed iterator: "The returned iterator is not valid"
(memtablerep.h line 112). -/
def mkIter {K : Type} (keys : List K) : Iter K := ⟨keys, none⟩

/-- `Iterator::Valid` (line 117): true iff positioned at a valid node. -/
def Iter.Valid {K : Type} (it : Iter K) : Bool := it.pos.isSome

/-- `Iterator::key` (line 121): the key at the current position (`none`
models the REQUIRES Valid() precondition being violated). -/
def Iter.key {K : Type} (it : Iter K) : Option K :=
  match it.pos with
  | none => none
  | some p => it.keys[p]?

/-- `Iterator::Next` (line 125): advance to the next position; falls off the
end into the invalid state.  Modelled from the spec. -/
def Iter.Next {K : Type} (it : Iter K) : Iter K :=
  match it.pos with
  | none => it
  | some p => ⟨it.keys, if p + 1 < it.keys.length then some (p + 1) else none⟩

/-- `Iterator::Prev` (line 129): step back to the previous position; falls
off the front into the invalid state.  Modelled from the spec. -/
def Iter.Prev {K : Type} (it : Iter K) : Iter K :=
  match it.pos with
  | none => it
  | some p => ⟨it.keys, if p = 0 then none else some (p - 1)⟩

/-- Scan of `Iterator::Seek`: index (from `i`) of the first entry of `l`
whose key is `≥ target` under the comparator. -/
def seekAux {K : Type} (cmp : K → K → Int) (target : K) : List K → Nat → Option Nat
  | [], _ => none
  | k :: rest, i => if 0 ≤ cmp k target then some i else seekAux cmp target rest (i + 1)

/-- `Iterator::Seek` (lines 131-132): "Advance to the first entry with a
key >= target".  Modelled from the spec. -/
def Iter.Seek {K : Type} (cmp : K → K → Int) (it : Iter K) (target : K) : Iter K :=
  ⟨it.keys, seekAux cmp target it.keys 0⟩

/-- `Iterator::SeekToFirst` (lines 134-136): position at the first entry;
Valid() afterwards iff the collection is not empty.  Modelled from the
spec. -/
def Iter.SeekToFirst {K : Type} (it : Iter K) : Iter K :=
  ⟨it.keys, if it.keys.isEmpty then none else some 0⟩

/-- `Iterator::SeekToLast` (lines 138-140): position at the last entry;
Valid() afterwards iff the collection is not empty.  Modelled from the
spec. -/
def Iter.SeekToLast {K : Type} (it : Iter K) : Iter K :=
  ⟨it.keys, if it.keys.isEmpty then none else some (it.keys.length - 1)⟩

/-- Drive an iterator forward, collecting the key at each valid position and
calling `Next`, with enough fuel to exhaust the collection. -/
def scanForward {K : Type} : Nat → Iter K → List K
  | 0, _ => []
  | fuel + 1, it =>
    match it.key with
    | none => []
    | some k => k :: scanForward fuel it.Next

/-- Drive an iterator backward, collecting the key at each valid position
and calling `Prev`, with enough fuel to exhaust the collection. -/
def scanBackward {K : Type} : Nat → Iter K → List K
  | 0, _ => []
  | fuel + 1, it =>
    match it.key with
    | none => []
    | some k => k :: scanBackward fuel it.Prev

/-- The full forward iteration: `SeekToFirst` then repeated `Next`. -/
def iterForwardList {K : Type} (it : Iter K) : List K :=
  scanForward it.keys.length it.SeekToFirst

/-- The full backward iteration: `SeekToLast` then repeated `Prev`. -/
def iterBackwardList {K : Type} (it : Iter K) : List K :=
  scanBackward it.keys.length it.SeekToLast

/-- `GetIterator()` (line 144): an iterator over the keys of the
representation, in ascending comparator order.  Modelled from the spec: the
iteration sequence is the comparator-sorted list of entries, and the
returned iterator starts out invalid. -/
def GetIterator {K : Type} (cmp : K → K → Int) (st : RepState K) : Iter K :=
  mkIter (sortEntries cmp st.entries)

/-- A comparator on natural-number keys: the sign of `a - b` over `Int`. -/
def natCmp (a b : Nat) : Int := (a : Int) - (b : Int)

/-- One callback invocation performed by the default `Get` scan: the
callback state it was invoked with, the entry passed to it, and the boolean
it returned (`conti = true` means continue scanning). -/
structure CbStep (σ K : Type) where
  state : σ
  entry : K
  conti : Bool

/-- Modelled from the spec: the scan loop of the default `MemTableRep::Get`
(memtablerep.h lines 88-100).  Starting from the seek position, the loop
invokes the callback on each entry, advancing while the callback returns
true and stopping when it returns false or the user key no longer matches.
The callback threads a state (modelling `callback_args`); the result is the
trace of callback invocations, in order. -/
def getTrace {σ K : Type} (matchesUser : K → Bool) (cb : σ → K → σ × Bool) :
    List K → σ → List (CbStep σ K)
  | [], _ => []
  | k :: rest, s =>
    if matchesUser k then
      if (cb s k).2 then ⟨s, k, true⟩ :: getTrace matchesUser cb rest (cb s k).1
      else [⟨s, k, false⟩]
    else []

/-- Modelled from the spec: the default `Get` dynamically constructs an
iterator, seeks to the first entry whose user key matches the lookup key's
user key, and runs the callback scan loop from there. -/
def GetDefault {σ K : Type} (cmp : K → K → Int) (matchesUser : K → Bool)
    (cb : σ → K → σ × Bool) (st : RepState K) (s : σ) : List (CbStep σ K) :=
  getTrace matchesUser cb
    ((sortEntries cmp st.entries).dropWhile (fun k => !matchesUser k)) s

/-- Holds of a callback trace in which every invocation except possibly the
last returned true: once the callback returns false, no further invocation
occurs. -/
def stopsAfterFalse {σ K : Type} : List (CbStep σ K) → Bool
  | [] => true
  | s :: rest => (s.conti || rest.isEmpty) && stopsAfterFalse rest

/-- The claimed scan protocol of the default `Get`, transcribed from the
spec's words: the callback is invoked once per entry with the threaded
state, the scan advancing while the callback returns true, and stopping
only when the callback returns false, when the user key no longer matches,
or when the entries are exhausted.  `GetScanProtocol m cb l s t` relates
the entries `l` from the seek position and initial callback state `s` to
the full invocation trace `t`: on a non-empty entry list whose head
matches, an invocation is mandatory. -/
inductive GetScanProtocol {σ K : Type} (m : K → Bool) (cb : σ → K → σ × Bool) :
    List K → σ → List (CbStep σ K) → Prop where
  | exhausted (s : σ) : GetScanProtocol m cb [] s []
  | keyMismatch (s : σ) (k : K) (rest : List K) (hm : m k = false) :
      GetScanProtocol m cb (k :: rest) s []
  | callbackStops (s : σ) (k : K) (rest : List K) (hm : m k = true)
      (hcb : (cb s k).2 = false) :
      GetScanProtocol m cb (k :: rest) s [⟨s, k, false⟩]
  | advances (s : σ) (k : K) (rest : List K) (t : List (CbStep σ K))
      (hm : m k = true) (hcb : (cb s k).2 = true)
      (ht : GetScanProtocol m cb rest (cb s k).1 t) :
      GetScanProtocol m cb (k :: rest) s (⟨s, k, true⟩ :: t)

/-- Modelled from the spec: the state of a `VectorRep` (memtablerep.h lines
27-30): an unsorted append buffer, the read-only flag, and the one-way
"sorted" flag recording that the buffer has been sorted. -/
structure VectorRep (K : Type) where
  buffer : List K
  immutable : Bool
  sorted : Bool

/-- Result of one `VectorRep` iterator request: the rep state afterwards,
the iteration sequence handed to the iterator, and how many full comparator
sorts the request performed. -/
structure VIterResult (K : Type) where
  rep : VectorRep K
  out : List K
  sorts : Nat

/-- Modelled from the spec: `VectorRep` insertion appends in O(1) without
maintaining order. -/
def VectorRep.insert {K : Type} (st : VectorRep K) (k : K) : VectorRep K :=
  { st with buffer := st.buffer ++ [k] }

/-- Modelled from the spec: `MarkReadOnly` on a `VectorRep` sets the
read-only flag. -/
def VectorRep.markReadOnly {K : Type} (st : VectorRep K) : VectorRep K :=
  { st with immutable := true }

/-- Modelled from the spec: an iterator request against a `VectorRep`.  On a
read-only rep the first request sorts the buffer in place and sets the
one-way sorted flag; later requests reuse the now-sorted buffer without
re-sorting.  On a still-mutable rep the request sorts a transient copy and
leaves the rep unchanged. -/
def VectorRep.getIter {K : Type} (cmp : K → K → Int) (st : VectorRep K) : VIterResult K :=
  if st.immutable then
    if st.sorted then ⟨st, st.buffer, 0⟩
    else ⟨⟨sortEntries cmp st.buffer, true, true⟩, sortEntries cmp st.buffer, 1⟩
  else ⟨st, sortEntries cmp st.buffer, 1⟩

/-- Total number of full comparator sorts performed by `n` successive
iterator requests starting from `st`. -/
def VectorRep.sortsDuring {K : Type} (cmp : K → K → Int) (st : VectorRep K) : Nat → Nat
  | 0 => 0
  | n + 1 =>
    (VectorRep.getIter cmp st).sorts +
      VectorRep.sortsDuring cmp (VectorRep.getIter cmp st).rep n

/-- Outputs of `n` successive iterator requests starting from `st`. -/
def VectorRep.outputsDuring {K : Type} (cmp : K → K → Int) (st : VectorRep K) :
    Nat → List (List K)
  | 0 => []
  | n + 1 =>
    (VectorRep.getIter cmp st).out ::
      VectorRep.outputsDuring cmp (VectorRep.getIter cmp st).rep n

/-- The capability flags a `MemTableRep` exposes, together with whether the
representation supports iteration at all. -/
structure Capabilities where
  mergeOperatorSupported : Bool
  snapshotSupported : Bool
  iterationSupported : Bool

/-- The base-class defaults: `IsMergeOperatorSupported` and
`IsSnapshotSupported` both `return true` (memtablerep.h lines 155-161), and
the interface provides iteration. -/
def defaultCapabilities : Capabilities := ⟨true, true, true⟩

/-- Modelled from the spec: `HashCuckooRep` overrides both capability flags
to false, supporting neither snapshot reads nor iteration (memtablerep.h
lines 253-256 header comment). -/
def hashCuckooCapabilities : Capabilities := ⟨false, false, false⟩

/-- A `MemTableRep` object as seen by the iterator-factory default bodies:
the pure-virtual `GetIterator()` is whatever the concrete class implements,
here a function producing the iterator. -/
structure RepObject (K : Type) where
  getIteratorImpl : Unit → Iter K

/-- `GetIterator()` (memtablerep.h line 144): virtual dispatch to the
concrete implementation. -/
def RepObject.GetIterator {K : Type} (r : RepObject K) : Iter K :=
  r.getIteratorImpl ()

/-- `GetIterator(user_key)` default body (memtablerep.h line 149):
`return GetIterator();`.  The user key is a byte string (`Slice`). -/
def RepObject.GetIteratorScoped {K : Type} (r : RepObject K)
    (userKey : List Nat) : Iter K :=
  r.GetIterator

/-- `GetDynamicPrefixIterator()` default body (memtablerep.h line 153):
`return GetIterator();`. -/
def RepObject.GetDynamicPrefixIterator {K : Type} (r : RepObject K) : Iter K :=
  r.GetIterator

/-- Names of the construction parameters of the memtable factories. -/
inductive ParamName where
  | bucket_count
  | skiplist_height
  | skiplist_branching_factor
  | huge_page_tlb_size
  | write_buffer_size
  | average_data_size
  | hash_function_count
  | count
deriving DecidableEq

/-- A construction parameter of a factory function: its name and the default
value its declaration carries, `none` when the parameter has no default
argument. -/
structure FactoryParam where
  pname : ParamName
  dflt : Option Nat

/-- The parameter list of `NewHashSkipListRepFactory` (memtablerep.h lines
218-221): `bucket_count = 1000000`, `skiplist_height = 4`,
`skiplist_branching_factor = 4`. -/
def newHashSkipListRepFactoryParams : List FactoryParam :=
  [⟨ParamName.bucket_count, some 1000000⟩,
   ⟨ParamName.skiplist_height, some 4⟩,
   ⟨ParamName.skiplist_branching_factor, some 4⟩]

/-- The parameter list of `NewHashLinkListRepFactory` (memtablerep.h lines
232-233): `bucket_count = 50000`, `huge_page_tlb_size = 0`. -/
def newHashLinkListRepFactoryParams : List FactoryParam :=
  [⟨ParamName.bucket_count, some 50000⟩,
   ⟨ParamName.huge_page_tlb_size, some 0⟩]

/-- The parameter list of `NewHashCuckooRepFactory` (memtablerep.h lines
266-268): `write_buffer_size` carries no default argument,
`average_data_size = 64`, `hash_function_count = 4`. -/
def newHashCuckooRepFactoryParams : List FactoryParam :=
  [⟨ParamName.write_buffer_size, none⟩,
   ⟨ParamName.average_data_size, some 64⟩,
   ⟨ParamName.hash_function_count, some 4⟩]

/-- The parameter list of the `VectorRepFactory` constructor (memtablerep.h
line 203): `count = 0`. -/
def vectorRepFactoryParams : List FactoryParam :=
  [⟨ParamName.count, some 0⟩]

/-- The parameter list of the `SkipListFactory` constructor: none. -/
def skipListFactoryParams : List FactoryParam := []

/-- The default value a factory declaration documents for a parameter:
`none` when the factory has no such parameter, `some d` where `d` is the
declaration's default (itself an `Option`). -/
def defaultOf (ps : List FactoryParam) (n : ParamName) : Option (Option Nat) :=
  (ps.find? (fun p => p.pname == n)).map (fun p => p.dflt)

/-! ### Theorems -/

theorem contains_iff {K : Type} (cmp : K → K → Int) (l : List K) (k : K) :
    contains cmp l k = true ↔ ∃ e ∈ l, cmp e k = 0 := by
  simp [contains, List.any_eq_true]

theorem validOps_append_left {K : Type} (cmp : K → K → Int) :
    ∀ (a b : List (Op K)) (st : RepState K),
      validOps cmp st (a ++ b) = true → validOps cmp st a = true := by
  intro a
  induction a with
  | nil => intro b st _; rfl
  | cons o rest ih =>
    intro b st h
    cases o with
    | ins k =>
      simp only [List.cons_append, validOps, Bool.and_eq_true] at h ⊢
      exact ⟨h.1, ih b _ h.2⟩
    | mro =>
      simp only [List.cons_append, validOps] at h ⊢
      exact ih b _ h

theorem pairwise_runOps {K : Type} (cmp : K → K → Int) :
    ∀ (ops : List (Op K)) (st : RepState K),
      validOps cmp st ops = true →
      List.Pairwise (fun a b => cmp a b ≠ 0) st.entries →
      List.Pairwise (fun a b => cmp a b ≠ 0) (runOps st ops).entries := by
  intro ops
  induction ops with
  | nil => intro st _ hp; exact hp
  | cons o rest ih =>
    intro st hv hp
    cases o with
    | ins k =>
      simp only [validOps, Bool.and_eq_true, Bool.not_eq_true'] at hv
      refine ih (insertKey st k) hv.2 ?_
      have hnc : ∀ e ∈ st.entries, cmp e k ≠ 0 := by
        intro e he heq
        have hc : contains cmp st.entries k = true := (contains_iff cmp _ k).2 ⟨e, he, heq⟩
        simp [hc] at hv
      simpa [insertKey, List.pairwise_append] using And.intro hp hnc
    | mro =>
      simp only [validOps] at hv
      exact ih (markReadOnly st) hv hp

/-- Claim C1: for every sequence of interface operations in which each
inserted key satisfies the stated `Insert` precondition (nothing
comparator-equal is already in the collection), at every point of the
sequence the collection never holds two entries that compare equal under
the comparator; `Insert` returns no error value, so duplicate insertion is
a caller contract violation, not a reported error. -/
theorem insert_precondition_gives_unique_entries {K : Type} (cmp : K → K → Int)
    (ops₁ ops₂ : List (Op K))
    (hv : validOps cmp emptyRep (ops₁ ++ ops₂) = true) :
    List.Pairwise (fun a b => cmp a b ≠ 0) (runOps emptyRep ops₁).entries := by
  have h₁ : validOps cmp emptyRep ops₁ = true := validOps_append_left cmp ops₁ ops₂ _ hv
  exact pairwise_runOps cmp ops₁ emptyRep h₁ (by simp [emptyRep])

theorem natCmp_isComparator : IsComparator natCmp := by
  refine ⟨?_, ?_, ?_⟩
  · intro a; simp only [natCmp]; omega
  · intro a b; simp only [natCmp]; omega
  · intro a b c h1 h2; simp only [natCmp] at h1 h2 ⊢; omega

/-- Witness for C1: a concrete valid operation sequence whose resulting
entries are pairwise comparator-distinct. -/
theorem insert_precondition_gives_unique_entries_witness :
    List.Pairwise (fun a b => natCmp a b ≠ 0)
      (runOps emptyRep [Op.ins 3, Op.ins 1, Op.mro]).entries :=
  insert_precondition_gives_unique_entries natCmp
    [Op.ins 3, Op.ins 1, Op.mro] [Op.ins 2] (by decide)

theorem mem_insertSorted {K : Type} (cmp : K → K → Int) (k a : K) :
    ∀ l : List K, a ∈ insertSorted cmp k l ↔ a = k ∨ a ∈ l := by
  intro l
  induction l with
  | nil => simp [insertSorted]
  | cons x xs ih =>
    simp only [insertSorted]
    split
    · simp
    · simp only [List.mem_cons, ih]
      tauto

theorem mem_sortEntries {K : Type} (cmp : K → K → Int) (a : K) :
    ∀ l : List K, a ∈ sortEntries cmp l ↔ a ∈ l := by
  intro l
  induction l with
  | nil => simp [sortEntries]
  | cons x xs ih => simp [sortEntries, mem_insertSorted, ih]

theorem pairwise_insertSorted {K : Type} {cmp : K → K → Int}
    (hc : IsComparator cmp) (k : K) :
    ∀ l : List K, List.Pairwise (fun a b => cmp a b ≤ 0) l →
      List.Pairwise (fun a b => cmp a b ≤ 0) (insertSorted cmp k l) := by
  intro l
  induction l with
  | nil => intro _; simp [insertSorted]
  | cons x xs ih =>
    intro hl
    rw [List.pairwise_cons] at hl
    simp only [insertSorted]
    split
    next hkx =>
      rw [List.pairwise_cons]
      refine ⟨?_, List.pairwise_cons.2 hl⟩
      intro b hb
      rcases List.mem_cons.1 hb with hbx | hbxs
      · exact hbx ▸ hkx
      · exact hc.trans_le k x b hkx (hl.1 b hbxs)
    next hkx =>
      rw [List.pairwise_cons]
      refine ⟨?_, ih hl.2⟩
      intro b hb
      rcases (mem_insertSorted cmp k b xs).1 hb with hbk | hbxs
      · have h1 : 0 < cmp k x := by omega
        have h2 : cmp x k < 0 := (hc.flip x k).2 h1
        rw [hbk]
        omega
      · exact hl.1 b hbxs

theorem pairwise_sortEntries {K : Type} {cmp : K → K → Int}
    (hc : IsComparator cmp) :
    ∀ l : List K, List.Pairwise (fun a b => cmp a b ≤ 0) (sortEntries cmp l) := by
  intro l
  induction l with
  | nil => simp [sortEntries]
  | cons x xs ih => exact pairwise_insertSorted hc x _ ih

theorem scanForward_none {K : Type} (keys : List K) :
    ∀ fuel, scanForward fuel (⟨keys, none⟩ : Iter K) = [] := by
  intro fuel
  cases fuel with
  | zero => rfl
  | succ n => simp [scanForward, Iter.key]

theorem scanBackward_none {K : Type} (keys : List K) :
    ∀ fuel, scanBackward fuel (⟨keys, none⟩ : Iter K) = [] := by
  intro fuel
  cases fuel with
  | zero => rfl
  | succ n => simp [scanBackward, Iter.key]

theorem scanForward_drop {K : Type} (keys : List K) :
    ∀ (fuel p : Nat), keys.length - p ≤ fuel →
      scanForward fuel (⟨keys, some p⟩ : Iter K) = keys.drop p := by
  intro fuel
  induction fuel with
  | zero =>
    intro p hp
    have : keys.length ≤ p := by omega
    rw [List.drop_eq_nil_of_le this]
    rfl
  | succ n ih =>
    intro p hp
    by_cases hlt : p < keys.length
    · have hk : (⟨keys, some p⟩ : Iter K).key = some keys[p] := by
        simp [Iter.key, List.getElem?_eq_getElem hlt]
      rw [scanForward, hk]
      have hnext : (⟨keys, some p⟩ : Iter K).Next =
          ⟨keys, if p + 1 < keys.length then some (p + 1) else none⟩ := rfl
      by_cases hlt2 : p + 1 < keys.length
      · rw [hnext, if_pos hlt2, ih (p + 1) (by omega)]
        exact (List.drop_eq_getElem_cons hlt).symm
      · rw [hnext, if_neg hlt2, scanForward_none]
        have hp1 : keys.length = p + 1 := by omega
        rw [List.drop_eq_getElem_cons hlt, List.drop_eq_nil_of_le (by omega)]
    · have hk : (⟨keys, some p⟩ : Iter K).key = none := by
        simp [Iter.key, List.getElem?_eq_none (by omega : keys.length ≤ p)]
      rw [scanForward, hk, List.drop_eq_nil_of_le (by omega : keys.length ≤ p)]

theorem scanBackward_take {K : Type} (keys : List K) :
    ∀ (fuel p : Nat), p < keys.length → p + 1 ≤ fuel →
      scanBackward fuel (⟨keys, some p⟩ : Iter K) = (keys.take (p + 1)).reverse := by
  intro fuel
  induction fuel with
  | zero => intro p _ hp1; omega
  | succ n ih =>
    intro p hlt _
    have hk : (⟨keys, some p⟩ : Iter K).key = some keys[p] := by
      simp [Iter.key, List.getElem?_eq_getElem hlt]
    rw [scanBackward, hk]
    have hprev : (⟨keys, some p⟩ : Iter K).Prev =
        ⟨keys, if p = 0 then none else some (p - 1)⟩ := rfl
    cases p with
    | zero =>
      rw [hprev, if_pos rfl, scanBackward_none]
      rw [List.take_succ]
      simp [List.getElem?_eq_getElem hlt]
    | succ q =>
      rw [hprev, if_neg (Nat.succ_ne_zero q)]
      have hq : (q + 1) - 1 = q := rfl
      rw [hq, ih q (by omega) (by omega)]
      show keys[q + 1] :: (List.take (q + 1) keys).reverse =
        (List.take (q + 1 + 1) keys).reverse
      have h2 : List.take (q + 1 + 1) keys = List.take (q + 1) keys ++ [keys[q + 1]] := by
        rw [List.take_succ, List.getElem?_eq_getElem hlt]
        rfl
      rw [h2, List.reverse_append]
      rfl

theorem iterForwardList_mkIter {K : Type} (keys : List K) :
    iterForwardList (mkIter keys) = keys := by
  cases keys with
  | nil => rfl
  | cons x xs =>
    have hne : (x :: xs).isEmpty = false := rfl
    simp only [iterForwardList, mkIter, Iter.SeekToFirst, hne]
    rw [if_neg (by simp)]
    exact scanForward_drop (x :: xs) (x :: xs).length 0 (by omega)

theorem iterBackwardList_mkIter {K : Type} (keys : List K) :
    iterBackwardList (mkIter keys) = keys.reverse := by
  cases keys with
  | nil => rfl
  | cons x xs =>
    simp only [iterBackwardList, mkIter, Iter.SeekToLast]
    rw [if_neg (by simp)]
    rw [scanBackward_take (x :: xs) (x :: xs).length ((x :: xs).length - 1)
      (by simp) (by simp)]
    have hlen : (x :: xs).length - 1 + 1 = (x :: xs).length := by simp
    rw [hlen, List.take_length]

/-- Claim C3: driving an iterator forward (`SeekToFirst` then repeated
`Next`) yields a sequence that is non-decreasing under the comparator, and
driving it backward (`SeekToLast` then repeated `Prev`) yields exactly the
reverse of that sequence. -/
theorem iteration_sorted_and_reversible {K : Type} (cmp : K → K → Int)
    (hc : IsComparator cmp) (st : RepState K) :
    List.Pairwise (fun a b => cmp a b ≤ 0) (iterForwardList (GetIterator cmp st)) ∧
    iterBackwardList (GetIterator cmp st) = (iterForwardList (GetIterator cmp st)).reverse := by
  constructor
  · rw [GetIterator, iterForwardList_mkIter]
    exact pairwise_sortEntries hc _
  · rw [GetIterator, iterForwardList_mkIter, iterBackwardList_mkIter]

/-- Witness for C3: ordered forward/backward iteration of a concrete
collection. -/
theorem iteration_sorted_and_reversible_witness :
    List.Pairwise (fun a b => natCmp a b ≤ 0)
      (iterForwardList (GetIterator natCmp ⟨[3, 1, 2], true⟩)) ∧
    iterBackwardList (GetIterator natCmp ⟨[3, 1, 2], true⟩) =
      (iterForwardList (GetIterator natCmp ⟨[3, 1, 2], true⟩)).reverse :=
  iteration_sorted_and_reversible natCmp natCmp_isComparator ⟨[3, 1, 2], true⟩

theorem mem_entries_runOps {K : Type} (a : K) :
    ∀ (ops : List (Op K)) (st : RepState K),
      a ∈ st.entries → a ∈ (runOps st ops).entries := by
  intro ops
  induction ops with
  | nil => intro st h; exact h
  | cons o rest ih =>
    intro st h
    cases o with
    | ins k => exact ih (insertKey st k) (by simp [insertKey, h])
    | mro => exact ih (markReadOnly st) h

/-- Claim C2: the collection is append-only.  For every key `k` inserted at
any point of an operation sequence, at the end of the sequence (and so at
every later point) `Contains k` returns true and `k` appears in the full
forward iteration; no operation of the interface removes an entry. -/
theorem inserted_key_stays {K : Type} (cmp : K → K → Int) (k : K)
    (hrefl : cmp k k = 0) (pre post : List (Op K)) :
    contains cmp (runOps emptyRep (pre ++ Op.ins k :: post)).entries k = true ∧
    k ∈ iterForwardList (GetIterator cmp (runOps emptyRep (pre ++ Op.ins k :: post))) := by
  have hmem : k ∈ (runOps emptyRep (pre ++ Op.ins k :: post)).entries := by
    have hsplit : runOps emptyRep (pre ++ Op.ins k :: post) =
        runOps (insertKey (runOps emptyRep pre) k) post := by
      simp [runOps, List.foldl_append, List.foldl_cons, applyOp]
    rw [hsplit]
    exact mem_entries_runOps k post _ (by simp [insertKey])
  constructor
  · exact (contains_iff cmp _ k).2 ⟨k, hmem, hrefl⟩
  · rw [GetIterator, iterForwardList_mkIter, mem_sortEntries]
    exact hmem

/-- Witness for C2: a concretely inserted key is still contained and still
iterated at the end of a longer operation sequence. -/
theorem inserted_key_stays_witness :
    contains natCmp (runOps emptyRep ([Op.ins 9] ++ Op.ins 5 :: [Op.ins 7, Op.mro])).entries 5 = true ∧
    5 ∈ iterForwardList (GetIterator natCmp (runOps emptyRep ([Op.ins 9] ++ Op.ins 5 :: [Op.ins 7, Op.mro]))) :=
  inserted_key_stays natCmp 5 (by decide) [Op.ins 9] [Op.ins 7, Op.mro]

/-- Claim C10: an iterator freshly returned by an iterator factory is not
`Valid()`, and after `SeekToFirst()` or `SeekToLast()` the iterator is
`Valid()` iff the collection is non-empty. -/
theorem iterator_validity {K : Type} (keys : List K) :
    (mkIter keys).Valid = false ∧
    ((mkIter keys).SeekToFirst.Valid = true ↔ keys ≠ []) ∧
    ((mkIter keys).SeekToLast.Valid = true ↔ keys ≠ []) := by
  cases keys with
  | nil => simp [mkIter, Iter.Valid, Iter.SeekToFirst, Iter.SeekToLast]
  | cons x xs => simp [mkIter, Iter.Valid, Iter.SeekToFirst, Iter.SeekToLast]

/-- Witness for C10: validity of fresh and seeked iterators on a concrete
collection. -/
theorem iterator_validity_witness :
    (mkIter [5, 7]).Valid = false ∧
    ((mkIter [5, 7]).SeekToFirst.Valid = true ↔ ([5, 7] : List Nat) ≠ []) ∧
    ((mkIter [5, 7]).SeekToLast.Valid = true ↔ ([5, 7] : List Nat) ≠ []) :=
  iterator_validity [5, 7]

theorem seekAux_eq_none_iff {K : Type} (cmp : K → K → Int) (target : K) :
    ∀ (l : List K) (i : Nat),
      seekAux cmp target l i = none ↔ ∀ k ∈ l, cmp k target < 0 := by
  intro l
  induction l with
  | nil => intro i; simp [seekAux]
  | cons k rest ih =>
    intro i
    simp only [seekAux]
    split
    next h =>
      constructor
      · intro hco; cases hco
      · intro hall; exact absurd (hall k (by simp)) (by omega)
    next h =>
      rw [ih (i + 1)]
      constructor
      · intro hall k2 hk2
        rcases List.mem_cons.1 hk2 with hk | hk
        · rw [hk]; omega
        · exact hall k2 hk
      · intro hall k2 hk2
        exact hall k2 (List.mem_cons_of_mem k hk2)

theorem seekAux_eq_some {K : Type} (cmp : K → K → Int) (target : K) :
    ∀ (l : List K) (i p : Nat), seekAux cmp target l i = some p →
      i ≤ p ∧ ∃ k, l[p - i]? = some k ∧ 0 ≤ cmp k target ∧
        ∀ j kj, j < p - i → l[j]? = some kj → cmp kj target < 0 := by
  intro l
  induction l with
  | nil => intro i p h; cases h
  | cons k rest ih =>
    intro i p h
    simp only [seekAux] at h
    split at h
    next h0 =>
      have hip : i = p := by cases h; rfl
      subst hip
      refine ⟨le_refl i, k, ?_, h0, ?_⟩
      · simp
      · intro j kj hj _; omega
    next h0 =>
      obtain ⟨hip, k2, hk2, hge, hbefore⟩ := ih (i + 1) p h
      refine ⟨by omega, k2, ?_, hge, ?_⟩
      · have hpi : p - i = (p - (i + 1)) + 1 := by omega
        rw [hpi, List.getElem?_cons_succ]
        exact hk2
      · intro j kj hj hkj
        cases j with
        | zero =>
          rw [List.getElem?_cons_zero] at hkj
          cases hkj
          omega
        | succ j2 =>
          rw [List.getElem?_cons_succ] at hkj
          exact hbefore j2 kj (by omega) hkj

/-- Claim C9: `Seek(target)` positions the cursor at the first entry whose
key is greater than or equal to the target under the comparator (every
earlier entry compares strictly less), and leaves the iterator invalid when
no such entry exists. -/
theorem seek_positions_at_first_geq {K : Type} (cmp : K → K → Int)
    (keys : List K) (target : K) :
    ((Iter.Seek cmp (mkIter keys) target).Valid = false ↔
      ∀ k ∈ keys, cmp k target < 0) ∧
    (∀ p, (Iter.Seek cmp (mkIter keys) target).pos = some p →
      ∃ k, keys[p]? = some k ∧ 0 ≤ cmp k target ∧
        ∀ j kj, j < p → keys[j]? = some kj → cmp kj target < 0) := by
  constructor
  · have hvp : (Iter.Seek cmp (mkIter keys) target).Valid = false ↔
        (Iter.Seek cmp (mkIter keys) target).pos = none := by
      cases hpos : (Iter.Seek cmp (mkIter keys) target).pos <;> simp [Iter.Valid, hpos]
    rw [hvp]
    exact seekAux_eq_none_iff cmp target keys 0
  · intro p hp
    have h := seekAux_eq_some cmp target keys 0 p hp
    simpa using h.2

/-- Witness for C9: seeking a concrete collection for a concrete target
lands on the first entry greater than or equal to it. -/
theorem seek_positions_at_first_geq_witness :
    ((Iter.Seek natCmp (mkIter [1, 3, 5]) 2).Valid = false ↔
      ∀ k ∈ [1, 3, 5], natCmp k 2 < 0) ∧
    (∀ p, (Iter.Seek natCmp (mkIter [1, 3, 5]) 2).pos = some p →
      ∃ k, ([1, 3, 5] : List Nat)[p]? = some k ∧ 0 ≤ natCmp k 2 ∧
        ∀ j kj, j < p → ([1, 3, 5] : List Nat)[j]? = some kj → natCmp kj 2 < 0) :=
  seek_positions_at_first_geq natCmp [1, 3, 5] 2

theorem getTrace_stops {σ K : Type} (matchesUser : K → Bool) (cb : σ → K → σ × Bool) :
    ∀ (l : List K) (s : σ), stopsAfterFalse (getTrace matchesUser cb l s) = true := by
  intro l
  induction l with
  | nil => intro s; rfl
  | cons k rest ih =>
    intro s
    simp only [getTrace]
    split
    next hm =>
      split
      next hcb => simp [stopsAfterFalse, ih]
      next hcb => simp [stopsAfterFalse]
    next hm => rfl

theorem getTrace_matches {σ K : Type} (matchesUser : K → Bool) (cb : σ → K → σ × Bool) :
    ∀ (l : List K) (s : σ),
      (getTrace matchesUser cb l s).all (fun step => matchesUser step.entry) = true := by
  intro l
  induction l with
  | nil => intro s; rfl
  | cons k rest ih =>
    intro s
    simp only [getTrace]
    split
    next hm =>
      split
      next hcb => simp [List.all_cons, hm, ih]
      next hcb => simp [List.all_cons, hm]
    next hm => rfl

theorem getTrace_entries_take {σ K : Type} (matchesUser : K → Bool) (cb : σ → K → σ × Bool) :
    ∀ (l : List K) (s : σ),
      (getTrace matchesUser cb l s).map (fun step => step.entry) =
        l.take (getTrace matchesUser cb l s).length := by
  intro l
  induction l with
  | nil => intro s; rfl
  | cons k rest ih =>
    intro s
    simp only [getTrace]
    split
    next hm =>
      split
      next hcb => simp [List.map_cons, List.length_cons, List.take_succ_cons, ih]
      next hcb => simp
    next hm => rfl

theorem getTrace_protocol {σ K : Type} (matchesUser : K → Bool) (cb : σ → K → σ × Bool) :
    ∀ (l : List K) (s : σ),
      GetScanProtocol matchesUser cb l s (getTrace matchesUser cb l s) := by
  intro l
  induction l with
  | nil => intro s; exact GetScanProtocol.exhausted s
  | cons k rest ih =>
    intro s
    simp only [getTrace]
    split
    next hm =>
      split
      next hcb => exact GetScanProtocol.advances s k rest _ hm hcb (ih _)
      next hcb =>
        exact GetScanProtocol.callbackStops s k rest hm (Bool.eq_false_iff.mpr hcb)
    next hm => exact GetScanProtocol.keyMismatch s k rest (Bool.eq_false_iff.mpr hm)

/-- Claim C4: the default `Get` positions an iterator at the first entry
whose user key matches the lookup key's user key and invokes the callback
once per entry, advancing while the callback returns true and stopping when
it returns false or the user keys no longer match.  The invocation trace
satisfies `GetScanProtocol`, the transcription of that loop (so on a
non-empty matching remainder an invocation is mandatory: the scan advances
while the callback returns true and stops only for one of the three claimed
reasons); moreover every invocation except possibly the last returned true
(once the callback returns false no further invocation occurs, even if more
entries with the same user key exist), every invoked entry matches the user
key, and the invoked entries are exactly the first consecutive entries
starting at the first match of the iteration order. -/
theorem get_default_callback_protocol {σ K : Type} (cmp : K → K → Int)
    (matchesUser : K → Bool) (cb : σ → K → σ × Bool) (st : RepState K) (s : σ) :
    GetScanProtocol matchesUser cb
      ((sortEntries cmp st.entries).dropWhile (fun k => !matchesUser k)) s
      (GetDefault cmp matchesUser cb st s) ∧
    stopsAfterFalse (GetDefault cmp matchesUser cb st s) = true ∧
    (GetDefault cmp matchesUser cb st s).all (fun step => matchesUser step.entry) = true ∧
    (GetDefault cmp matchesUser cb st s).map (fun step => step.entry) =
      ((sortEntries cmp st.entries).dropWhile (fun k => !matchesUser k)).take
        (GetDefault cmp matchesUser cb st s).length := by
  refine ⟨getTrace_protocol matchesUser cb _ s, getTrace_stops matchesUser cb _ s,
    getTrace_matches matchesUser cb _ s, ?_⟩
  exact getTrace_entries_take matchesUser cb _ s

theorem vectorRep_getIter_of_sorted {K : Type} (cmp : K → K → Int)
    (st : VectorRep K) (him : st.immutable = true) (hs : st.sorted = true) :
    VectorRep.getIter cmp st = ⟨st, st.buffer, 0⟩ := by
  simp [VectorRep.getIter, him, hs]

theorem vectorRep_sortsDuring_of_sorted {K : Type} (cmp : K → K → Int)
    (st : VectorRep K) (him : st.immutable = true) (hs : st.sorted = true) :
    ∀ n, VectorRep.sortsDuring cmp st n = 0 ∧
      VectorRep.outputsDuring cmp st n = List.replicate n st.buffer := by
  intro n
  induction n with
  | zero => exact ⟨rfl, rfl⟩
  | succ m ih =>
    rw [VectorRep.sortsDuring, VectorRep.outputsDuring,
      vectorRep_getIter_of_sorted cmp st him hs]
    exact ⟨by simpa using ih.1, by simpa [List.replicate_succ] using ih.2⟩

/-- Claim C5: for a `VectorRep`, after `MarkReadOnly` the first iterator
request triggers exactly one full comparator sort; every subsequent
iterator request (with no intervening inserts) performs zero sorts and
produces output identical to the first request's. -/
theorem vectorRep_sort_once {K : Type} (cmp : K → K → Int) (st : VectorRep K)
    (him : st.immutable = true) (hs : st.sorted = false) :
    (VectorRep.getIter cmp st).sorts = 1 ∧
    ∀ n, VectorRep.sortsDuring cmp (VectorRep.getIter cmp st).rep n = 0 ∧
      VectorRep.outputsDuring cmp (VectorRep.getIter cmp st).rep n =
        List.replicate n (VectorRep.getIter cmp st).out := by
  have hfirst : VectorRep.getIter cmp st =
      ⟨⟨sortEntries cmp st.buffer, true, true⟩, sortEntries cmp st.buffer, 1⟩ := by
    simp [VectorRep.getIter, him, hs]
  rw [hfirst]
  exact ⟨rfl, vectorRep_sortsDuring_of_sorted cmp _ rfl rfl⟩

/-- Witness for C5: a concrete read-only, not-yet-sorted `VectorRep` sorts
exactly once on the first iterator request and never again over the next
two requests, producing identical output. -/
theorem vectorRep_sort_once_witness :
    (VectorRep.getIter natCmp ⟨[3, 1, 2], true, false⟩).sorts = 1 ∧
    VectorRep.sortsDuring natCmp (VectorRep.getIter natCmp ⟨[3, 1, 2], true, false⟩).rep 2 = 0 ∧
    VectorRep.outputsDuring natCmp (VectorRep.getIter natCmp ⟨[3, 1, 2], true, false⟩).rep 2 =
      List.replicate 2 (VectorRep.getIter natCmp ⟨[3, 1, 2], true, false⟩).out :=
  ⟨(vectorRep_sort_once natCmp ⟨[3, 1, 2], true, false⟩ rfl rfl).1,
   ((vectorRep_sort_once natCmp ⟨[3, 1, 2], true, false⟩ rfl rfl).2 2).1,
   ((vectorRep_sort_once natCmp ⟨[3, 1, 2], true, false⟩ rfl rfl).2 2).2⟩

/-- Claim C6: `IsMergeOperatorSupported()` and `IsSnapshotSupported()` both
return true by default for every `MemTableRep`, and `HashCuckooRep`
overrides both to false: it supports neither snapshot reads nor
iteration. -/
theorem capability_flags :
    defaultCapabilities.mergeOperatorSupported = true ∧
    defaultCapabilities.snapshotSupported = true ∧
    hashCuckooCapabilities.mergeOperatorSupported = false ∧
    hashCuckooCapabilities.snapshotSupported = false ∧
    hashCuckooCapabilities.iterationSupported = false :=
  ⟨rfl, rfl, rfl, rfl, rfl⟩

/-- Claim C7: for every `MemTableRep` that does not override them, the
default bodies of `GetIterator(userKey)` and `GetDynamicPrefixIterator()`
return exactly what `GetIterator()` returns: the three iterator factories
are equal functions in the default implementation. -/
theorem iterator_factories_default_equal {K : Type} (r : RepObject K)
    (userKey : List Nat) :
    RepObject.GetIteratorScoped r userKey = RepObject.GetIterator r ∧
    RepObject.GetDynamicPrefixIterator r = RepObject.GetIterator r :=
  ⟨rfl, rfl⟩

/-- Claim C8 counterexample: not every construction parameter of every
factory carries a default value.  `write_buffer_size` of
`NewHashCuckooRepFactory` has no default argument in its declaration. -/
theorem factory_params_counterexample :
    newHashCuckooRepFactoryParams.all (fun p => p.dflt.isSome) = false := by
  rfl

/-- Claim C8 (amended): every construction parameter of the hash factories
except `write_buffer_size` carries a documented default with the listed
value — hash skip list: `bucket_count = 1000000`, `skiplist_height = 4`,
`skiplist_branching_factor = 4`; hash linked list: `bucket_count = 50000`,
`huge_page_tlb_size = 0`; hash cuckoo: `average_data_size = 64`,
`hash_function_count = 4` — while `write_buffer_size` is a required
parameter with no default. -/
theorem factory_params_defaults :
    defaultOf newHashSkipListRepFactoryParams ParamName.bucket_count = some (some 1000000) ∧
    defaultOf newHashSkipListRepFactoryParams ParamName.skiplist_height = some (some 4) ∧
    defaultOf newHashSkipListRepFactoryParams ParamName.skiplist_branching_factor = some (some 4) ∧
    defaultOf newHashLinkListRepFactoryParams ParamName.bucket_count = some (some 50000) ∧
    defaultOf newHashLinkListRepFactoryParams ParamName.huge_page_tlb_size = some (some 0) ∧
    defaultOf newHashCuckooRepFactoryParams ParamName.average_data_size = some (some 64) ∧
    defaultOf newHashCuckooRepFactoryParams ParamName.hash_function_count = some (some 4) ∧
    defaultOf newHashCuckooRepFactoryParams ParamName.write_buffer_size = some none :=
  ⟨rfl, rfl, rfl, rfl, rfl, rfl, rfl, rfl⟩

end MemTable
